import Mathlib

set_option autoImplicit false

namespace BevyCollapsor

/-! Shallow embedding of the wave-function-collapse core of bevy-collapsor:
the tile model of `src/components.rs` and the rule extraction, rotation
expansion, entropy scan, observation and constraint propagation of
`src/wcf.rs`.  Rust `i32` values are modeled as `Int` (no rotation amount in
the program approaches the overflow range) and `usize` as `Nat`; a `HashSet`
becomes a `Finset`; a `HashMap` becomes a key `Finset` together with a total
lookup function whose value on absent keys is the `or_default()` default. -/

/-- Rust `Coordinates` (components.rs): integer grid position. -/
structure Coordinates where
  x : Int
  y : Int
deriving DecidableEq, Repr

/-- Rust `Orientation` (components.rs): the four cardinal values, discriminants
`North = 0`, `East = 1`, `South = 2`, `West = 3`. -/
inductive Orientation : Type
  | North
  | East
  | South
  | West
deriving DecidableEq, Repr, Inhabited, Fintype

namespace Orientation

/-- Rust `Orientation::values()`. -/
def values : List Orientation := [North, East, South, West]

/-- The `i32` discriminant of an `Orientation`. -/
def idx : Orientation → Int
  | North => 0
  | East => 1
  | South => 2
  | West => 3

/-- Rust `FromPrimitive::from_i32`, total on the image `[0, 4)` of `rem_euclid 4`. -/
def ofIdx (n : Int) : Orientation :=
  if n = 0 then North else if n = 1 then East else if n = 2 then South else West

/-- Rust `Orientation::rotate` / `Orientation::rotated`: advance the discriminant
by `amount` and take `rem_euclid 4`. -/
def rotated (o : Orientation) (amount : Int) : Orientation :=
  ofIdx ((o.idx + amount) % 4)

/-- Rust `Orientation::offset`: the grid coordinate one step in direction `o`. -/
def offset (o : Orientation) (coordinate : Coordinates) : Coordinates :=
  match o with
  | North => ⟨coordinate.x, coordinate.y + 1⟩
  | East => ⟨coordinate.x - 1, coordinate.y⟩
  | South => ⟨coordinate.x, coordinate.y - 1⟩
  | West => ⟨coordinate.x + 1, coordinate.y⟩

/-- The direction from the neighbor cell back to the original cell; claim C5
calls this the opposite direction (East/West, North/South). -/
def opposite : Orientation → Orientation
  | North => South
  | East => West
  | South => North
  | West => East

end Orientation

theorem Orientation.idx_ofIdx (n : Int) (h0 : 0 ≤ n) (h4 : n < 4) :
    (Orientation.ofIdx n).idx = n := by
  interval_cases n <;> decide

theorem Orientation.rotated_rotated (o : Orientation) (a b : Int) :
    (o.rotated a).rotated b = o.rotated (a + b) := by
  unfold Orientation.rotated
  rw [Orientation.idx_ofIdx ((o.idx + a) % 4) (Int.emod_nonneg _ (by norm_num))
    (Int.emod_lt_of_pos _ (by norm_num))]
  rw [Int.emod_add_emod, Int.add_assoc]

theorem Orientation.opposite_eq_rotated_two (o : Orientation) :
    o.opposite = o.rotated 2 := by
  cases o <;> decide

/-- Rust `opposite` commutes with `rotated`. -/
theorem Orientation.opposite_rotated (o : Orientation) (k : Int) :
    (o.rotated k).opposite = o.opposite.rotated k := by
  rw [Orientation.opposite_eq_rotated_two, Orientation.opposite_eq_rotated_two,
    Orientation.rotated_rotated, Orientation.rotated_rotated, Int.add_comm]

/-- Stepping in direction `o` and then in the opposite direction returns to
the starting coordinate: the two offsets are inverse translations. -/
theorem Orientation.offset_opposite (o : Orientation) (c : Coordinates) :
    o.opposite.offset (o.offset c) = c := by
  cases o <;> cases c <;> simp [Orientation.offset, Orientation.opposite]

/-- Rust `Equivalences` (components.rs): rotational symmetry class of a
prototype's visual asset. -/
inductive Equivalences : Type
  | None
  | HalfTurn
  | QuarterTurn
deriving DecidableEq, Repr

/-- Rust `Tile` (components.rs): the CSP domain element. -/
structure Tile where
  prototype_index : Nat
  orientation : Orientation
deriving DecidableEq, Repr, Inhabited

/-- Rust `Prototype` (components.rs).  The `model : Handle<Scene>` rendering-asset
field plays no part in the solver and is omitted. -/
structure Prototype where
  index : Nat
  equivalences : Equivalences
deriving DecidableEq, Repr

/-- Rust `Prototype::make_tile`. -/
def Prototype.make_tile (p : Prototype) (o : Orientation) : Tile :=
  ⟨p.index, o⟩

/-- Rust `Prototype::make_rotated_tile`: rotate, then canonicalize the resulting
orientation through the prototype's equivalence class. -/
def Prototype.make_rotated_tile (p : Prototype) (original_orientation : Orientation)
    (rotation : Int) : Tile :=
  let o1 := original_orientation.rotated rotation
  let o2 :=
    match p.equivalences with
    | Equivalences.None => o1
    | Equivalences.HalfTurn =>
      match o1 with
      | Orientation.North | Orientation.South => Orientation.North
      | Orientation.East | Orientation.West => Orientation.East
    | Equivalences.QuarterTurn => Orientation.North
  p.make_tile o2

theorem Orientation.rotated_four : ∀ o : Orientation, o.rotated 4 = o := by
  decide

/-- Claim C7 counterexample: for the half-turn-symmetric prototype `0` and the
(non-canonical) tile `(0, South)`, `make_rotated_tile(t.orientation, 4)`
returns `(0, North)`, not `t`: a full turn is not the identity on arbitrary
tiles when the equivalence class collapses orientations. -/
theorem C7_counterexample :
    (Prototype.mk 0 Equivalences.HalfTurn).make_rotated_tile
      (Tile.mk 0 Orientation.South).orientation 4 ≠ Tile.mk 0 Orientation.South := by
  decide

/-- Claim C7 (amended): a full turn (`k = 4`) is the identity on every tile
that the prototype itself produces, i.e. on canonical tiles
`p.make_rotated_tile o k`; for such a tile `t`,
`p.make_rotated_tile t.orientation 4 = t`, whatever the equivalence class. -/
theorem C7_full_turn_identity (p : Prototype) (o : Orientation) (k : Int) :
    p.make_rotated_tile (p.make_rotated_tile o k).orientation 4 =
      p.make_rotated_tile o k := by
  obtain ⟨i, e⟩ := p
  simp only [Prototype.make_rotated_tile, Prototype.make_tile]
  generalize o.rotated k = c
  cases e <;> cases c <;> simp [Orientation.rotated_four]

/-- Rust `get_tile_prototype` (wcf.rs): safe optional-tile lookup of the rule grid
at signed coordinates.  The grid is `rule_tiles : Vec<Vec<OptionalTile>>`,
modeled as a list of rows of `Option Tile`. -/
def get_tile_prototype (map : List (List (Option Tile))) (coordinates : Coordinates) :
    Option Tile :=
  if coordinates.x < 0 ∨ coordinates.y < 0 then none
  else
    match map.get? coordinates.x.toNat with
    | none => none
    | some line =>
      match line.get? coordinates.y.toNat with
      | none => none
      | some tile => tile

/-- Rust `rules.alloweds : HashMap<Tile, Allowed>`: the key set together with the
total view of the stored values; `alloweds t o` is the set held at
`allowed.entry(o).or_default()` of the entry of `t`, so it is `∅` wherever no
insertion ever happened (in particular on absent keys, matching
`entry(t).or_default()`). -/
structure RulesMap where
  keys : Finset Tile
  alloweds : Tile → Orientation → Finset Tile

/-- Rust `rules.alloweds.get(t)`: the `HashMap` lookup, `none` on absent keys. -/
def RulesMap.get (m : RulesMap) (t : Tile) : Option (Orientation → Finset Tile) :=
  if t ∈ m.keys then some (m.alloweds t) else none

/-- Rust `HashMap::<Tile, Allowed>::new()`. -/
def RulesMap.empty : RulesMap :=
  ⟨∅, fun _ _ => ∅⟩

/-- Rust `rules.alloweds.entry(tile).or_default()`: make the key present. -/
def RulesMap.addKey (m : RulesMap) (t : Tile) : RulesMap :=
  ⟨insert t m.keys, m.alloweds⟩

/-- Rust `allowed.entry(o).or_default().insert(nt)` on the entry of `t`. -/
def RulesMap.insertAllowed (m : RulesMap) (t : Tile) (o : Orientation) (nt : Tile) :
    RulesMap :=
  ⟨m.keys, fun t1 o1 =>
    if t1 = t ∧ o1 = o then insert nt (m.alloweds t o) else m.alloweds t1 o1⟩

theorem RulesMap.mem_insertAllowed (m : RulesMap) (t : Tile) (o : Orientation)
    (nt : Tile) (t1 : Tile) (o1 : Orientation) (rat : Tile) :
    rat ∈ (m.insertAllowed t o nt).alloweds t1 o1 ↔
      rat ∈ m.alloweds t1 o1 ∨ (t1 = t ∧ o1 = o ∧ rat = nt) := by
  unfold RulesMap.insertAllowed
  dsimp only
  by_cases h : t1 = t ∧ o1 = o
  · obtain ⟨ht, ho⟩ := h
    subst ht; subst ho
    simp [Finset.mem_insert]
    tauto
  · rw [if_neg h]
    constructor
    · intro hmem; exact Or.inl hmem
    · rintro (hmem | ⟨ht, ho, _⟩)
      · exact hmem
      · exact absurd ⟨ht, ho⟩ h

/-- The body of the orientation loop of the rule extraction (wcf.rs lines
90-99): record the filled neighbour in direction `o`, if any. -/
def ruleOrientationStep (rule_tiles : List (List (Option Tile))) (coords : Coordinates)
    (tile : Tile) (m : RulesMap) (o : Orientation) : RulesMap :=
  match get_tile_prototype rule_tiles (o.offset coords) with
  | none => m
  | some neighbour_tile => m.insertAllowed tile o neighbour_tile

/-- One iteration of the x/y scan of the rule grid (wcf.rs lines 83-102):
skip an unfilled cell; for a filled one create its entry and record its
filled neighbours in all four directions. -/
def ruleCellStep (rule_tiles : List (List (Option Tile))) (m : RulesMap)
    (xy : Nat × Nat) : RulesMap :=
  match (rule_tiles.getD xy.1 []).getD xy.2 none with
  | none => m
  | some tile =>
    Orientation.values.foldl
      (ruleOrientationStep rule_tiles ⟨(xy.1 : Int), (xy.2 : Int)⟩ tile)
      (m.addKey tile)

/-- The coordinates visited by the nested `for x in 0..rule_width { for y in
0..rule_height { .. } }` loops, flattened in iteration order. -/
def coordList (w h : Nat) : List (Nat × Nat) :=
  (List.range w).flatMap fun x => (List.range h).map fun y => (x, y)

/-- The rule extraction of `collapse` (wcf.rs lines 82-102), before rotation
expansion: scan the grid and record every filled neighbour of every filled
cell. -/
def extractRules (w h : Nat) (rule_tiles : List (List (Option Tile))) : RulesMap :=
  (coordList w h).foldl (ruleCellStep rule_tiles) RulesMap.empty

theorem mem_coordList (w h : Nat) (xy : Nat × Nat) :
    xy ∈ coordList w h ↔ xy.1 < w ∧ xy.2 < h := by
  obtain ⟨x, y⟩ := xy
  simp [coordList, List.mem_flatMap, List.mem_map, List.mem_range]

theorem mem_alloweds_orientFold (g : List (List (Option Tile))) (coords : Coordinates)
    (tile : Tile) (l : List Orientation) (m : RulesMap) (t : Tile) (o : Orientation)
    (rat : Tile) :
    rat ∈ (l.foldl (ruleOrientationStep g coords tile) m).alloweds t o ↔
      rat ∈ m.alloweds t o ∨
        ∃ o1 ∈ l, t = tile ∧ o = o1 ∧ get_tile_prototype g (o1.offset coords) = some rat := by
  induction l generalizing m with
  | nil => simp
  | cons hd tl ih =>
    rw [List.foldl_cons, ih]
    have hstep : rat ∈ (ruleOrientationStep g coords tile m hd).alloweds t o ↔
        rat ∈ m.alloweds t o ∨
          (t = tile ∧ o = hd ∧ get_tile_prototype g (hd.offset coords) = some rat) := by
      unfold ruleOrientationStep
      cases hg : get_tile_prototype g (hd.offset coords) with
      | none => simp [hg]
      | some nt => rw [RulesMap.mem_insertAllowed]; simp [hg, eq_comm]
    rw [hstep]
    simp only [List.mem_cons, exists_eq_or_imp]
    tauto

theorem keys_orientFold (g : List (List (Option Tile))) (coords : Coordinates)
    (tile : Tile) (l : List Orientation) (m : RulesMap) :
    (l.foldl (ruleOrientationStep g coords tile) m).keys = m.keys := by
  induction l generalizing m with
  | nil => rfl
  | cons hd tl ih =>
    rw [List.foldl_cons, ih]
    unfold ruleOrientationStep
    cases get_tile_prototype g (hd.offset coords) <;> rfl

theorem mem_alloweds_ruleCellStep (g : List (List (Option Tile))) (m : RulesMap)
    (xy : Nat × Nat) (t : Tile) (o : Orientation) (rat : Tile) :
    rat ∈ (ruleCellStep g m xy).alloweds t o ↔
      rat ∈ m.alloweds t o ∨
        ((g.getD xy.1 []).getD xy.2 none = some t ∧
          get_tile_prototype g (o.offset ⟨(xy.1 : Int), (xy.2 : Int)⟩) = some rat) := by
  unfold ruleCellStep
  cases hc : (g.getD xy.1 []).getD xy.2 none with
  | none => simp
  | some tile =>
    rw [mem_alloweds_orientFold]
    have hall : ∀ o1 : Orientation, o1 ∈ Orientation.values := by decide
    constructor
    · rintro (hmem | ⟨o1, _, rfl, rfl, hp⟩)
      · exact Or.inl hmem
      · exact Or.inr ⟨rfl, hp⟩
    · rintro (hmem | ⟨hsome, hp⟩)
      · exact Or.inl hmem
      · cases hsome
        exact Or.inr ⟨o, hall o, rfl, rfl, hp⟩

theorem mem_keys_ruleCellStep (g : List (List (Option Tile))) (m : RulesMap)
    (xy : Nat × Nat) (t : Tile) :
    t ∈ (ruleCellStep g m xy).keys ↔
      t ∈ m.keys ∨ (g.getD xy.1 []).getD xy.2 none = some t := by
  unfold ruleCellStep
  cases hc : (g.getD xy.1 []).getD xy.2 none with
  | none => simp
  | some tile =>
    rw [keys_orientFold]
    unfold RulesMap.addKey
    simp only [Finset.mem_insert, Option.some.injEq]
    constructor
    · rintro (rfl | hmem)
      · exact Or.inr rfl
      · exact Or.inl hmem
    · rintro (hmem | rfl)
      · exact Or.inr hmem
      · exact Or.inl rfl

theorem mem_alloweds_cellFold (g : List (List (Option Tile)))
    (l : List (Nat × Nat)) (m : RulesMap) (t : Tile) (o : Orientation) (rat : Tile) :
    rat ∈ (l.foldl (ruleCellStep g) m).alloweds t o ↔
      rat ∈ m.alloweds t o ∨
        ∃ xy ∈ l, (g.getD xy.1 []).getD xy.2 none = some t ∧
          get_tile_prototype g (o.offset ⟨(xy.1 : Int), (xy.2 : Int)⟩) = some rat := by
  induction l generalizing m with
  | nil => simp
  | cons hd tl ih =>
    rw [List.foldl_cons, ih, mem_alloweds_ruleCellStep]
    simp only [List.mem_cons, exists_eq_or_imp]
    tauto

theorem mem_keys_cellFold (g : List (List (Option Tile)))
    (l : List (Nat × Nat)) (m : RulesMap) (t : Tile) :
    t ∈ (l.foldl (ruleCellStep g) m).keys ↔
      t ∈ m.keys ∨ ∃ xy ∈ l, (g.getD xy.1 []).getD xy.2 none = some t := by
  induction l generalizing m with
  | nil => simp
  | cons hd tl ih =>
    rw [List.foldl_cons, ih, mem_keys_ruleCellStep]
    simp only [List.mem_cons, exists_eq_or_imp]
    tauto

theorem mem_alloweds_extractRules (w h : Nat) (g : List (List (Option Tile)))
    (t : Tile) (o : Orientation) (rat : Tile) :
    rat ∈ (extractRules w h g).alloweds t o ↔
      ∃ xy : Nat × Nat, xy.1 < w ∧ xy.2 < h ∧ (g.getD xy.1 []).getD xy.2 none = some t ∧
        get_tile_prototype g (o.offset ⟨(xy.1 : Int), (xy.2 : Int)⟩) = some rat := by
  unfold extractRules
  rw [mem_alloweds_cellFold]
  simp only [RulesMap.empty, Finset.not_mem_empty, false_or]
  constructor
  · rintro ⟨⟨x, y⟩, hmem, hc, hp⟩
    obtain ⟨hx, hy⟩ := (mem_coordList w h (x, y)).mp hmem
    exact ⟨(x, y), hx, hy, hc, hp⟩
  · rintro ⟨⟨x, y⟩, hx, hy, hc, hp⟩
    exact ⟨(x, y), (mem_coordList w h (x, y)).mpr ⟨hx, hy⟩, hc, hp⟩

theorem mem_keys_extractRules (w h : Nat) (g : List (List (Option Tile))) (t : Tile) :
    t ∈ (extractRules w h g).keys ↔
      ∃ xy : Nat × Nat, xy.1 < w ∧ xy.2 < h ∧ (g.getD xy.1 []).getD xy.2 none = some t := by
  unfold extractRules
  rw [mem_keys_cellFold]
  simp only [RulesMap.empty, Finset.not_mem_empty, false_or]
  constructor
  · rintro ⟨⟨x, y⟩, hmem, hc⟩
    obtain ⟨hx, hy⟩ := (mem_coordList w h (x, y)).mp hmem
    exact ⟨(x, y), hx, hy, hc⟩
  · rintro ⟨⟨x, y⟩, hx, hy, hc⟩
    exact ⟨(x, y), (mem_coordList w h (x, y)).mpr ⟨hx, hy⟩, hc⟩

theorem get_tile_prototype_neg (g : List (List (Option Tile))) (c : Coordinates)
    (h : c.x < 0 ∨ c.y < 0) : get_tile_prototype g c = none := by
  unfold get_tile_prototype
  rw [if_pos h]

/-- On nonnegative coordinates `get_tile_prototype` is the nested `getD`
lookup, with a missing row or missing cell read as `none`. -/
theorem get_tile_prototype_natCast (g : List (List (Option Tile))) (x y : Nat) :
    get_tile_prototype g ⟨(x : Int), (y : Int)⟩ = (g.getD x []).getD y none := by
  unfold get_tile_prototype
  rw [if_neg (by simp)]
  simp only [Int.toNat_natCast]
  cases hl : g.get? x with
  | none =>
    have hlen : g.length ≤ x := List.get?_eq_none.mp hl
    rw [List.getD_eq_default _ _ hlen]
    simp
  | some line =>
    have hrow : g.getD x [] = line := by
      rw [List.getD_eq_getD_get?, hl]; rfl
    rw [hrow]
    dsimp only
    cases he : line.get? y with
    | none =>
      have hlen : line.length ≤ y := List.get?_eq_none.mp he
      rw [List.getD_eq_default _ _ hlen]
    | some tile =>
      have hv : line.getD y none = tile := by rw [List.getD_eq_getD_get?, he]; rfl
      rw [hv]

theorem cell_getD_some_bounds {g : List (List (Option Tile))} {x y : Nat} {t : Tile}
    (h : (g.getD x []).getD y none = some t) :
    x < g.length ∧ y < (g.getD x []).length := by
  constructor
  · by_contra hx
    push_neg at hx
    rw [List.getD_eq_default _ _ hx] at h
    simp at h
  · by_contra hy
    push_neg at hy
    rw [List.getD_eq_default _ _ hy] at h
    exact Option.noConfusion h

/-- The raw extracted table is symmetric: a neighbour relation recorded by
the grid scan is also recorded in the opposite direction (both cells of the
witnessing pair are filled, in bounds, and scanned, since the scanned index
ranges cover the whole grid: in `collapse` both are 16 for the 16x16 grid),
and every recorded neighbour tile is itself a key. -/
theorem extractRules_symm (w h : Nat) (g : List (List (Option Tile)))
    (hw : g.length ≤ w) (hh : ∀ row ∈ g, row.length ≤ h)
    (t rat : Tile) (o : Orientation)
    (hmem : rat ∈ (extractRules w h g).alloweds t o) :
    t ∈ (extractRules w h g).alloweds rat o.opposite ∧
      rat ∈ (extractRules w h g).keys := by
  rw [mem_alloweds_extractRules] at hmem
  obtain ⟨⟨x, y⟩, hx, hy, hcell, hnb⟩ := hmem
  have hnneg : ¬((o.offset ⟨(x : Int), (y : Int)⟩).x < 0 ∨
      (o.offset ⟨(x : Int), (y : Int)⟩).y < 0) := by
    intro hn
    rw [get_tile_prototype_neg g _ hn] at hnb
    exact Option.noConfusion hnb
  push_neg at hnneg
  obtain ⟨hnx0, hny0⟩ := hnneg
  have hnc2 : (⟨(((o.offset ⟨(x : Int), (y : Int)⟩).x.toNat : Nat) : Int),
      (((o.offset ⟨(x : Int), (y : Int)⟩).y.toNat : Nat) : Int)⟩ : Coordinates) =
      o.offset ⟨(x : Int), (y : Int)⟩ := by
    rw [Int.toNat_of_nonneg hnx0, Int.toNat_of_nonneg hny0]
  have hnbD : (g.getD (o.offset ⟨(x : Int), (y : Int)⟩).x.toNat []).getD
      (o.offset ⟨(x : Int), (y : Int)⟩).y.toNat none = some rat := by
    rw [← get_tile_prototype_natCast, hnc2]
    exact hnb
  obtain ⟨hnxlen, hnylen⟩ := cell_getD_some_bounds hnbD
  have hrowmem : g.getD (o.offset ⟨(x : Int), (y : Int)⟩).x.toNat [] ∈ g := by
    rw [List.getD_eq_getElem _ _ hnxlen]
    exact List.getElem_mem hnxlen
  have hback : o.opposite.offset (⟨(((o.offset ⟨(x : Int), (y : Int)⟩).x.toNat : Nat) : Int),
      (((o.offset ⟨(x : Int), (y : Int)⟩).y.toNat : Nat) : Int)⟩ : Coordinates) =
      (⟨(x : Int), (y : Int)⟩ : Coordinates) := by
    rw [hnc2, Orientation.offset_opposite]
  constructor
  · rw [mem_alloweds_extractRules]
    refine ⟨((o.offset ⟨(x : Int), (y : Int)⟩).x.toNat,
      (o.offset ⟨(x : Int), (y : Int)⟩).y.toNat), lt_of_lt_of_le hnxlen hw,
      lt_of_lt_of_le hnylen (hh _ hrowmem), hnbD, ?_⟩
    rw [hback, get_tile_prototype_natCast]
    exact hcell
  · rw [mem_keys_extractRules]
    exact ⟨((o.offset ⟨(x : Int), (y : Int)⟩).x.toNat,
      (o.offset ⟨(x : Int), (y : Int)⟩).y.toNat), lt_of_lt_of_le hnxlen hw,
      lt_of_lt_of_le hnylen (hh _ hrowmem), hnbD⟩

/-- Rust `prototypes[t.prototype_index].make_rotated_tile(t.orientation, k)`: the
canonical `k`-rotated copy of a tile.  The prototype table (a `Vec` indexed
by `prototype_index`) is modeled as a total function. -/
def rotatedTileOf (prototypes : Nat → Prototype) (t : Tile) (k : Int) : Tile :=
  (prototypes t.prototype_index).make_rotated_tile t.orientation k

/-- Rust `expand_with_rotations` (wcf.rs lines 26-54).  The Rust loops visit every
map entry `tile`, every `tile_rotations` in `0..4`, every inner entry
`(orientation, allowed_values)` and every `allowed_tile` in it, inserting the
`make_rotated_tile` copy of the allowed tile into the entry of the rotated
key at the rotated orientation (the entry itself is created by
`or_default()` for each key/rotation pair).  The resulting map is exactly
the union of all insertions, which the iteration order of a `HashMap` cannot
affect; it is written here directly as that finite union. -/
def expand_with_rotations (prototypes : Nat → Prototype) (m : RulesMap) : RulesMap where
  keys := m.keys.biUnion fun tile =>
    (Finset.range 4).image fun k : Nat => rotatedTileOf prototypes tile (k : Int)
  alloweds := fun rt d =>
    m.keys.biUnion fun tile =>
      (Finset.range 4).biUnion fun k : Nat =>
        if rotatedTileOf prototypes tile (k : Int) = rt then
          (Finset.univ.filter fun o : Orientation => o.rotated (k : Int) = d).biUnion
            fun o => (m.alloweds tile o).image fun u => rotatedTileOf prototypes u (k : Int)
        else ∅

theorem mem_alloweds_expand (prototypes : Nat → Prototype) (m : RulesMap)
    (rt : Tile) (d : Orientation) (rat : Tile) :
    rat ∈ (expand_with_rotations prototypes m).alloweds rt d ↔
      ∃ tile ∈ m.keys, ∃ k : Nat, k < 4 ∧ rotatedTileOf prototypes tile (k : Int) = rt ∧
        ∃ o : Orientation, o.rotated (k : Int) = d ∧
          ∃ u ∈ m.alloweds tile o, rotatedTileOf prototypes u (k : Int) = rat := by
  unfold expand_with_rotations
  simp only [Finset.mem_biUnion, Finset.mem_range]
  constructor
  · rintro ⟨tile, htile, k, hk, hmem⟩
    by_cases hif : rotatedTileOf prototypes tile (k : Int) = rt
    · rw [if_pos hif] at hmem
      simp only [Finset.mem_biUnion, Finset.mem_filter, Finset.mem_univ, true_and,
        Finset.mem_image] at hmem
      obtain ⟨o, ho, u, hu, hru⟩ := hmem
      exact ⟨tile, htile, k, hk, hif, o, ho, u, hu, hru⟩
    · rw [if_neg hif] at hmem
      exact absurd hmem (Finset.not_mem_empty rat)
  · rintro ⟨tile, htile, k, hk, hif, o, ho, u, hu, hru⟩
    refine ⟨tile, htile, k, hk, ?_⟩
    rw [if_pos hif]
    simp only [Finset.mem_biUnion, Finset.mem_filter, Finset.mem_univ, true_and,
      Finset.mem_image]
    exact ⟨o, ho, u, hu, hru⟩

theorem mem_keys_expand (prototypes : Nat → Prototype) (m : RulesMap) (t : Tile) :
    t ∈ (expand_with_rotations prototypes m).keys ↔
      ∃ tile ∈ m.keys, ∃ k : Nat, k < 4 ∧ rotatedTileOf prototypes tile (k : Int) = t := by
  unfold expand_with_rotations
  simp only [Finset.mem_biUnion, Finset.mem_image, Finset.mem_range]

/-- Claim C5: in the adjacency table produced by rule extraction followed by
rotation expansion, membership is reciprocal in opposite directions: if
`t2 ∈ Allowed[t1][o]` then `t1 ∈ Allowed[t2][opposite o]`.  The hypotheses
state that the scanned index ranges cover the grid, as they do in `collapse`
(a 16x16 grid scanned with `rule_width = rule_height = 16`). -/
theorem C5_adjacency_symmetry (w h : Nat) (g : List (List (Option Tile)))
    (prototypes : Nat → Prototype)
    (hw : g.length ≤ w) (hh : ∀ row ∈ g, row.length ≤ h)
    (t1 t2 : Tile) (o : Orientation)
    (hmem : t2 ∈ (expand_with_rotations prototypes (extractRules w h g)).alloweds t1 o) :
    t1 ∈ (expand_with_rotations prototypes (extractRules w h g)).alloweds t2 o.opposite := by
  rw [mem_alloweds_expand] at hmem
  obtain ⟨tile, htile, k, hk, hrot, o0, ho0, u, hu, hru⟩ := hmem
  obtain ⟨hback, hukey⟩ := extractRules_symm w h g hw hh tile u o0 hu
  rw [mem_alloweds_expand]
  refine ⟨u, hukey, k, hk, hru, o0.opposite, ?_, tile, hback, hrot⟩
  rw [← Orientation.opposite_rotated, ho0]

/-- Concrete tiles and a concrete 1x2 rule grid used by witnesses: `tileB` is
the north neighbour of `tileA`. -/
def tileA : Tile := ⟨0, Orientation.North⟩

def tileB : Tile := ⟨1, Orientation.North⟩

def gridAB : List (List (Option Tile)) := [[some tileA, some tileB]]

def protosNone : Nat → Prototype := fun i => ⟨i, Equivalences.None⟩

theorem C5_adjacency_symmetry_witness :
    (gridAB.length ≤ 1 ∧ (∀ row ∈ gridAB, row.length ≤ 2) ∧
      tileB ∈ (expand_with_rotations protosNone
        (extractRules 1 2 gridAB)).alloweds tileA Orientation.North) ∧
    tileA ∈ (expand_with_rotations protosNone
      (extractRules 1 2 gridAB)).alloweds tileB Orientation.North.opposite :=
  ⟨⟨by decide, by decide, by decide⟩,
    C5_adjacency_symmetry 1 2 gridAB protosNone (by decide) (by decide)
      tileA tileB Orientation.North (by decide)⟩

/-- The local state of one `collapse` invocation (wcf.rs lines 115-214):
`waves` is the `Vec` of per-cell candidate sets read from the
`TileSuperposition` components, `need_propagation` the dirty set of cell
indices. -/
structure PropState where
  waves : List (Finset Tile)
  need_propagation : Finset Nat
deriving DecidableEq

/-- The per-orientation body of the propagation loop (wcf.rs lines 179-201):
if the popped cell has a neighbour in direction `o`, intersect that
neighbour's wave with the union over the popped cell's (pre-loop cloned)
wave of the allowed sets; on a change, write the intersection back and
insert the neighbour into the dirty set.  The
`rules.alloweds.get(value).unwrap().allowed.get(&orientation)` lookup is the
total `RulesMap.alloweds` view: a missing inner orientation key contributes
nothing, exactly as the `None` branch of `rule_constraints` does, and claim
C10 shows the outer `unwrap` cannot fail on reachable states. -/
def propagateOrientation (rules : RulesMap) (conn : Nat → Orientation → Option Nat)
    (propagating_wave : Finset Tile) (propagating_entity : Nat) (s : PropState)
    (o : Orientation) : PropState :=
  match conn propagating_entity o with
  | none => s
  | some neighbour =>
    let all_allowed_neighbour := propagating_wave.biUnion fun value => rules.alloweds value o
    let new_allowed_values := all_allowed_neighbour ∩ s.waves.getD neighbour ∅
    if new_allowed_values = s.waves.getD neighbour ∅ then s
    else ⟨s.waves.set neighbour new_allowed_values, insert neighbour s.need_propagation⟩

/-- One iteration of the propagation while loop (wcf.rs lines 162-203): pop
`propagating_entity` from the dirty set; if its wave is empty skip it
entirely (impossible to solve, avoid propagating it everywhere); otherwise
run the orientation loop with its cloned wave. -/
def propagateFrom (rules : RulesMap) (conn : Nat → Orientation → Option Nat)
    (s : PropState) (propagating_entity : Nat) : PropState :=
  if s.waves.getD propagating_entity ∅ = ∅ then
    ⟨s.waves, s.need_propagation.erase propagating_entity⟩
  else
    Orientation.values.foldl
      (propagateOrientation rules conn (s.waves.getD propagating_entity ∅)
        propagating_entity)
      ⟨s.waves, s.need_propagation.erase propagating_entity⟩

/-- Termination measure for the propagation loop: five times the total
candidate count plus the dirty-set size. -/
def measure (s : PropState) : Nat :=
  5 * (s.waves.map Finset.card).sum + s.need_propagation.card

/-- The propagation while loop, with the arbitrary `iter().next()` pick
supplied by the oracle `pick` and an explicit iteration bound `fuel`.  The
Rust loop is unbounded; the termination result for claim C9 shows that
fuel of `measure s` always drains the dirty set, so the bounded loop
reaches the same fixpoint the Rust loop does. -/
def propagationLoop (rules : RulesMap) (conn : Nat → Orientation → Option Nat)
    (pick : PropState → Nat) : Nat → PropState → PropState
  | 0, s => s
  | fuel + 1, s =>
    if s.need_propagation = ∅ then s
    else propagationLoop rules conn pick fuel (propagateFrom rules conn s (pick s))

/-- The number of while-loop iterations performed by `propagationLoop`. -/
def propagationLoopSteps (rules : RulesMap) (conn : Nat → Orientation → Option Nat)
    (pick : PropState → Nat) : Nat → PropState → Nat
  | 0, _ => 0
  | fuel + 1, s =>
    if s.need_propagation = ∅ then 0
    else propagationLoopSteps rules conn pick fuel (propagateFrom rules conn s (pick s)) + 1

/-- Rust `usize::MAX`, the initial value of `min_entropy`. -/
def usizeMax : Nat := 2 ^ 64 - 1

/-- One iteration of the minimum-entropy scan (wcf.rs lines 141-151). -/
def minEntropyStep (waves : List (Finset Tile)) (acc : Nat × List Nat) (i : Nat) :
    Nat × List Nat :=
  let entropy := (waves.getD i ∅).card
  let acc1 := if entropy < acc.1 ∧ 1 < entropy then (entropy, []) else acc
  if entropy = acc1.1 then (acc1.1, acc1.2 ++ [i]) else acc1

/-- The scan for the smallest entropy above one (wcf.rs lines 137-151):
returns the final `min_entropy` and `min_entropy_entities`. -/
def minEntropyScan (waves : List (Finset Tile)) : Nat × List Nat :=
  (List.range waves.length).foldl (minEntropyStep waves) (usizeMax, [])

/-- The `min_entropy_entities` list built by the scan. -/
def min_entropy_entities (waves : List (Finset Tile)) : List Nat :=
  (minEntropyScan waves).2

/-- Rust `min_entropy_entities.choose(&mut rng)` resolved by the oracle index
`cellChoice`: a uniform choice selects the entry at `cellChoice % length`. -/
def chosenEntity (waves : List (Finset Tile)) (cellChoice : Nat) : Nat :=
  (min_entropy_entities waves).getD (cellChoice % (min_entropy_entities waves).length) 0

/-- A total code for tiles, giving `Tile` a computable linear order used
only to enumerate a `HashSet` (whose iteration order is unspecified). -/
def tileCode (t : Tile) : Nat :=
  4 * t.prototype_index + t.orientation.idx.toNat

theorem tileCode_injective : Function.Injective tileCode := by
  intro a b h
  obtain ⟨ia, oa⟩ := a
  obtain ⟨ib, ob⟩ := b
  unfold tileCode at h
  have ha : oa.idx.toNat < 4 := by cases oa <;> decide
  have hb : ob.idx.toNat < 4 := by cases ob <;> decide
  simp only at h
  have hi : ia = ib := by omega
  subst hi
  have ho : oa.idx.toNat = ob.idx.toNat := by omega
  have hoo : oa = ob := by
    cases oa <;> cases ob <;> first | rfl | simp [Orientation.idx] at ho
  rw [hoo]

instance : LinearOrder Tile :=
  LinearOrder.lift' tileCode tileCode_injective

/-- Rust `observe` (wcf.rs lines 217-222) resolved by the draw oracle `tsel`: the
`HashSet` is collected in unspecified iteration order and the rng `choose`
draws one element, which together amount to an arbitrary selection from the
set; `tsel` is that selection, valid when it returns a member of every
nonempty set. -/
def observedTile (waves : List (Finset Tile)) (cellChoice : Nat)
    (tsel : Finset Tile → Tile) : Tile :=
  tsel (waves.getD (chosenEntity waves cellChoice) ∅)

/-- A concrete valid draw oracle: the smallest tile of the wave. -/
def tselMin (w : Finset Tile) : Tile :=
  w.min.untop' default

theorem tselMin_mem (w : Finset Tile) (h : w.Nonempty) : tselMin w ∈ w := by
  obtain ⟨a, ha⟩ := Finset.min_of_nonempty h
  unfold tselMin
  rw [ha]
  exact Finset.mem_of_min ha

/-- The state right after the observation (wcf.rs lines 154-161): the chosen
cell's wave replaced by the observed singleton, the dirty set seeded with
the chosen cell. -/
def observationState (waves : List (Finset Tile)) (cellChoice : Nat)
    (tsel : Finset Tile → Tile) : PropState :=
  ⟨waves.set (chosenEntity waves cellChoice) {observedTile waves cellChoice tsel},
    {chosenEntity waves cellChoice}⟩

/-- One invocation of the `collapse` system after the rule-change block
(wcf.rs lines 115-214): scan entropies; when no cell has entropy above one
the rng choose returns `None` and nothing happens; otherwise observe the
chosen cell and run the propagation loop until the dirty set drains. -/
def collapseTickState (rules : RulesMap) (conn : Nat → Orientation → Option Nat)
    (pick : PropState → Nat) (cellChoice : Nat) (tsel : Finset Tile → Tile)
    (waves : List (Finset Tile)) : PropState :=
  if min_entropy_entities waves = [] then ⟨waves, ∅⟩
  else
    propagationLoop rules conn pick
      (measure (observationState waves cellChoice tsel))
      (observationState waves cellChoice tsel)

/-- The number of propagation-loop iterations one tick performs. -/
def collapseTickSteps (rules : RulesMap) (conn : Nat → Orientation → Option Nat)
    (pick : PropState → Nat) (cellChoice : Nat) (tsel : Finset Tile → Tile)
    (waves : List (Finset Tile)) : Nat :=
  if min_entropy_entities waves = [] then 0
  else
    propagationLoopSteps rules conn pick
      (measure (observationState waves cellChoice tsel))
      (observationState waves cellChoice tsel)

/-- Rust `Tuning` (components.rs lines 303-323). -/
structure Tuning where
  show_rulemap : Bool
  collapse_per_frame : Nat
  backtrack_history_size : Nat

/-- Rust `Default for Tuning` (components.rs lines 315-323). -/
def Tuning.default : Tuning :=
  ⟨true, 100, 100⟩

/-- A concrete resolution of the arbitrary `need_propagation.iter().next()`
pick: the smallest element of the dirty set. -/
def pickFirst (s : PropState) : Nat :=
  s.need_propagation.min.untop' 0

theorem pickFirst_mem (s : PropState) (h : s.need_propagation.Nonempty) :
    pickFirst s ∈ s.need_propagation := by
  obtain ⟨a, ha⟩ := Finset.min_of_nonempty h
  unfold pickFirst
  rw [ha]
  exact Finset.mem_of_min ha

theorem getD_set_self (l : List (Finset Tile)) (n : Nat) (v : Finset Tile)
    (h : n < l.length) : (l.set n v).getD n ∅ = v := by
  rw [List.getD_eq_getElem _ _ (by simpa using h)]
  simp [List.getElem_set_self]

theorem getD_set_ne (l : List (Finset Tile)) (n m2 : Nat) (v : Finset Tile)
    (h : n ≠ m2) : (l.set n v).getD m2 ∅ = l.getD m2 ∅ := by
  rw [List.getD_eq_getElem?_getD, List.getD_eq_getElem?_getD, List.getElem?_set_ne h]

theorem sum_map_card_set (l : List (Finset Tile)) (n : Nat) (v : Finset Tile)
    (h : n < l.length) :
    ((l.set n v).map Finset.card).sum + (l.getD n ∅).card
      = (l.map Finset.card).sum + v.card := by
  induction l generalizing n with
  | nil => simp at h
  | cons hd tl ih =>
    cases n with
    | zero => simp [List.set]; omega
    | succ n =>
      simp only [List.set, List.map_cons, List.sum_cons, List.getD_cons_succ]
      have := ih n (by simpa using h)
      omega

/-- Unfolding equation for `propagateOrientation` with the let bindings
resolved. -/
theorem propagateOrientation_eq (rules : RulesMap)
    (conn : Nat → Orientation → Option Nat) (pwave : Finset Tile) (p : Nat)
    (s : PropState) (o : Orientation) :
    propagateOrientation rules conn pwave p s o =
      match conn p o with
      | none => s
      | some n =>
        if pwave.biUnion (fun value => rules.alloweds value o) ∩ s.waves.getD n ∅
            = s.waves.getD n ∅ then s
        else
          ⟨s.waves.set n
              (pwave.biUnion (fun value => rules.alloweds value o) ∩ s.waves.getD n ∅),
            insert n s.need_propagation⟩ :=
  rfl

theorem neighbour_lt_length {rules : RulesMap} {pwave : Finset Tile} {n : Nat}
    {s : PropState} {o : Orientation}
    (hne : pwave.biUnion (fun value => rules.alloweds value o) ∩ s.waves.getD n ∅
      ≠ s.waves.getD n ∅) : n < s.waves.length := by
  by_contra hge
  push_neg at hge
  rw [List.getD_eq_default _ _ hge] at hne
  simp at hne

theorem propagateOrientation_measure_le (rules : RulesMap)
    (conn : Nat → Orientation → Option Nat) (pwave : Finset Tile) (p : Nat)
    (s : PropState) (o : Orientation) :
    measure (propagateOrientation rules conn pwave p s o) ≤ measure s := by
  rw [propagateOrientation_eq]
  cases conn p o with
  | none => exact le_rfl
  | some n =>
    dsimp only
    split
    · exact le_rfl
    · rename_i hne
      have hlt : n < s.waves.length := neighbour_lt_length hne
      have hsub : pwave.biUnion (fun value => rules.alloweds value o) ∩ s.waves.getD n ∅
          ⊆ s.waves.getD n ∅ := Finset.inter_subset_right
      have hcardlt : (pwave.biUnion (fun value => rules.alloweds value o)
            ∩ s.waves.getD n ∅).card < (s.waves.getD n ∅).card :=
        Finset.card_lt_card (hsub.ssubset_of_ne hne)
      have hsum := sum_map_card_set s.waves n
        (pwave.biUnion (fun value => rules.alloweds value o) ∩ s.waves.getD n ∅) hlt
      have hcard : (insert n s.need_propagation).card ≤ s.need_propagation.card + 1 :=
        Finset.card_insert_le _ _
      unfold measure
      dsimp only
      omega

theorem propagateOrientation_subset (rules : RulesMap)
    (conn : Nat → Orientation → Option Nat) (pwave : Finset Tile) (p : Nat)
    (s : PropState) (o : Orientation) (i : Nat) :
    (propagateOrientation rules conn pwave p s o).waves.getD i ∅
      ⊆ s.waves.getD i ∅ := by
  rw [propagateOrientation_eq]
  cases conn p o with
  | none => exact subset_rfl
  | some n =>
    dsimp only
    split
    · exact subset_rfl
    · rename_i hne
      have hlt : n < s.waves.length := neighbour_lt_length hne
      dsimp only
      by_cases hin : n = i
      · subst hin
        rw [getD_set_self _ _ _ hlt]
        exact Finset.inter_subset_right
      · rw [getD_set_ne _ _ _ _ hin]

theorem orientFold_measure_le (rules : RulesMap)
    (conn : Nat → Orientation → Option Nat) (pwave : Finset Tile) (p : Nat)
    (l : List Orientation) (s : PropState) :
    measure (l.foldl (propagateOrientation rules conn pwave p) s) ≤ measure s := by
  induction l generalizing s with
  | nil => exact le_rfl
  | cons hd tl ih =>
    exact le_trans (ih (propagateOrientation rules conn pwave p s hd))
      (propagateOrientation_measure_le rules conn pwave p s hd)

theorem orientFold_subset (rules : RulesMap)
    (conn : Nat → Orientation → Option Nat) (pwave : Finset Tile) (p : Nat)
    (l : List Orientation) (s : PropState) (i : Nat) :
    (l.foldl (propagateOrientation rules conn pwave p) s).waves.getD i ∅
      ⊆ s.waves.getD i ∅ := by
  induction l generalizing s with
  | nil => exact subset_rfl
  | cons hd tl ih =>
    exact subset_trans (ih (propagateOrientation rules conn pwave p s hd))
      (propagateOrientation_subset rules conn pwave p s hd i)

theorem propagateFrom_measure_lt (rules : RulesMap)
    (conn : Nat → Orientation → Option Nat) (s : PropState) (p : Nat)
    (hp : p ∈ s.need_propagation) :
    measure (propagateFrom rules conn s p) < measure s := by
  have herase : (s.need_propagation.erase p).card < s.need_propagation.card :=
    Finset.card_erase_lt_of_mem hp
  unfold propagateFrom
  split
  · unfold measure
    dsimp only
    omega
  · refine lt_of_le_of_lt
      (orientFold_measure_le rules conn (s.waves.getD p ∅) p Orientation.values
        ⟨s.waves, s.need_propagation.erase p⟩) ?_
    unfold measure
    dsimp only
    omega

theorem propagateFrom_subset (rules : RulesMap)
    (conn : Nat → Orientation → Option Nat) (s : PropState) (p : Nat) (i : Nat) :
    (propagateFrom rules conn s p).waves.getD i ∅ ⊆ s.waves.getD i ∅ := by
  unfold propagateFrom
  split
  · exact subset_rfl
  · exact orientFold_subset rules conn (s.waves.getD p ∅) p Orientation.values
      ⟨s.waves, s.need_propagation.erase p⟩ i

theorem propagationLoop_drains (rules : RulesMap)
    (conn : Nat → Orientation → Option Nat) (pick : PropState → Nat)
    (hpick : ∀ s : PropState, s.need_propagation.Nonempty → pick s ∈ s.need_propagation) :
    ∀ (fuel : Nat) (s : PropState), measure s ≤ fuel →
      (propagationLoop rules conn pick fuel s).need_propagation = ∅ := by
  intro fuel
  induction fuel with
  | zero =>
    intro s hm
    unfold propagationLoop
    have hcard : s.need_propagation.card = 0 := by
      unfold measure at hm
      omega
    exact Finset.card_eq_zero.mp hcard
  | succ fuel ih =>
    intro s hm
    unfold propagationLoop
    split
    · assumption
    · rename_i hne
      apply ih
      have hnonempty : s.need_propagation.Nonempty := Finset.nonempty_iff_ne_empty.mpr hne
      have hlt := propagateFrom_measure_lt rules conn s (pick s) (hpick s hnonempty)
      omega

/-- Claim C9: for a finite grid and finite tile universe the propagation loop
always terminates: started from any state (in particular from the singleton
dirty set created by an observation), run with `measure s` much fuel and any
valid pick order, it reaches an empty dirty set - each iteration either
strictly shrinks some wave or removes a cell from the dirty set without
changing any wave, so `measure` strictly decreases. -/
theorem C9_propagation_terminates (rules : RulesMap)
    (conn : Nat → Orientation → Option Nat) (pick : PropState → Nat)
    (hpick : ∀ s : PropState, s.need_propagation.Nonempty → pick s ∈ s.need_propagation)
    (s : PropState) :
    (propagationLoop rules conn pick (measure s) s).need_propagation = ∅ :=
  propagationLoop_drains rules conn pick hpick (measure s) s le_rfl

/-- The concrete adjacency table used by witnesses and counterexamples:
`tileA` allows only `tileA` to its north and south. -/
def rulesAB : RulesMap :=
  ⟨{tileA, tileB}, fun t o =>
    if t = tileA ∧ (o = Orientation.North ∨ o = Orientation.South) then {tileA} else ∅⟩

/-- The concrete two-cell strip connectivity used by witnesses: cell 1 is the
north neighbour of cell 0. -/
def connPair : Nat → Orientation → Option Nat := fun p o =>
  if p = 0 ∧ o = Orientation.North then some 1
  else if p = 1 ∧ o = Orientation.South then some 0
  else none

/-- Cell 0 resolved to `tileA`, cell 1 resolved to `tileB`, cell 0 dirty. -/
def stateC1 : PropState :=
  ⟨[{tileA}, {tileB}], {0}⟩

/-- Cell 0 impossible (empty wave), cell 1 resolved, cell 0 dirty. -/
def stateC1e : PropState :=
  ⟨[∅, {tileB}], {0}⟩

theorem C9_propagation_terminates_witness :
    (∀ s : PropState, s.need_propagation.Nonempty → pickFirst s ∈ s.need_propagation) ∧
      (propagationLoop rulesAB connPair pickFirst (measure stateC1)
        stateC1).need_propagation = ∅ :=
  ⟨pickFirst_mem,
    C9_propagation_terminates rulesAB connPair pickFirst pickFirst_mem stateC1⟩

/-- Claim C1 counterexample: in `stateC1` the popped cell 0 has the resolved
(entropy-1) neighbour cell 1, yet the step restricts that neighbour's wave
(to the empty set): no entropy test protects a resolved neighbour. -/
theorem C1_counterexample :
    (stateC1.waves.getD 1 ∅).card ≤ 1 ∧
      (propagateFrom rulesAB connPair stateC1 0).waves.getD 1 ∅
        ≠ stateC1.waves.getD 1 ∅ := by
  decide

/-- Claim C1 (amended): the only entropy-based skip in a propagation step
concerns the popped cell itself: when the popped cell's wave is empty the
whole step only removes it from the dirty set and changes no wave.
Neighbours are intersected regardless of their own entropy (see the
counterexample: a resolved neighbour can be invalidated). -/
theorem C1_empty_popped_skips (rules : RulesMap)
    (conn : Nat → Orientation → Option Nat) (s : PropState) (p : Nat)
    (h : s.waves.getD p ∅ = ∅) :
    propagateFrom rules conn s p = ⟨s.waves, s.need_propagation.erase p⟩ := by
  unfold propagateFrom
  rw [if_pos h]

theorem C1_empty_popped_skips_witness :
    stateC1e.waves.getD 0 ∅ = ∅ ∧
      propagateFrom rulesAB connPair stateC1e 0 =
        ⟨stateC1e.waves, stateC1e.need_propagation.erase 0⟩ :=
  ⟨by decide, C1_empty_popped_skips rulesAB connPair stateC1e 0 (by decide)⟩

/-- Claim C2 counterexample: propagating from cell 0 of `stateC1` empties the
wave of neighbour cell 1, and cell 1 nevertheless ends up in the dirty set:
an emptied neighbour is marked dirty, unlike the claim states. -/
theorem C2_counterexample :
    (propagateFrom rulesAB connPair stateC1 0).waves.getD 1 ∅ = ∅ ∧
      1 ∈ (propagateFrom rulesAB connPair stateC1 0).need_propagation := by
  decide

/-- Claim C2 (amended): when the intersection differs from the neighbour's
previous wave, the neighbour's wave is replaced by the intersection and the
neighbour is inserted into the dirty set unconditionally - also when the new
wave is empty.  (Contradiction cascading is instead stopped when the emptied
cell is later popped: an empty-waved popped cell restricts nothing, see the
amended C1.) -/
theorem C2_changed_neighbour_marked (rules : RulesMap)
    (conn : Nat → Orientation → Option Nat) (pwave : Finset Tile) (p : Nat)
    (s : PropState) (o : Orientation) (n : Nat)
    (hc : conn p o = some n)
    (hne : pwave.biUnion (fun value => rules.alloweds value o) ∩ s.waves.getD n ∅
      ≠ s.waves.getD n ∅) :
    (propagateOrientation rules conn pwave p s o).waves.getD n ∅
        = pwave.biUnion (fun value => rules.alloweds value o) ∩ s.waves.getD n ∅ ∧
      n ∈ (propagateOrientation rules conn pwave p s o).need_propagation := by
  rw [propagateOrientation_eq, hc]
  dsimp only
  rw [if_neg hne]
  exact ⟨getD_set_self _ _ _ (neighbour_lt_length hne), Finset.mem_insert_self n _⟩

theorem C2_changed_neighbour_marked_witness :
    (connPair 0 Orientation.North = some 1 ∧
      Finset.biUnion {tileA} (fun value => rulesAB.alloweds value Orientation.North)
          ∩ stateC1.waves.getD 1 ∅
        ≠ stateC1.waves.getD 1 ∅) ∧
      ((propagateOrientation rulesAB connPair {tileA} 0 stateC1
            Orientation.North).waves.getD 1 ∅
          = Finset.biUnion {tileA} (fun value => rulesAB.alloweds value Orientation.North)
              ∩ stateC1.waves.getD 1 ∅ ∧
        1 ∈ (propagateOrientation rulesAB connPair {tileA} 0 stateC1
          Orientation.North).need_propagation) :=
  ⟨⟨by decide, by decide⟩,
    C2_changed_neighbour_marked rulesAB connPair {tileA} 0 stateC1 Orientation.North 1
      (by decide) (by decide)⟩

/-- One solver step inside a tick with the rules fixed: either the
observation of one cell (its wave replaced by the singleton of one of its
own members, the cell inserted into the dirty set; wcf.rs lines 154-161 and
217-222), or one iteration of the propagation loop (wcf.rs lines 162-203). -/
inductive SolverStep (rules : RulesMap) (conn : Nat → Orientation → Option Nat) :
    PropState → PropState → Prop
  | observe (s : PropState) (i : Nat) (t : Tile) (ht : t ∈ s.waves.getD i ∅) :
      SolverStep rules conn s ⟨s.waves.set i {t}, insert i s.need_propagation⟩
  | propagate (s : PropState) (p : Nat) :
      SolverStep rules conn s (propagateFrom rules conn s p)

theorem SolverStep.waves_subset {rules : RulesMap}
    {conn : Nat → Orientation → Option Nat} {s s' : PropState}
    (h : SolverStep rules conn s s') (i : Nat) :
    s'.waves.getD i ∅ ⊆ s.waves.getD i ∅ := by
  cases h with
  | observe j t ht =>
    dsimp only
    by_cases hji : j = i
    · subst hji
      have hlt : j < s.waves.length := by
        by_contra hge
        push_neg at hge
        rw [List.getD_eq_default _ _ hge] at ht
        exact absurd ht (Finset.not_mem_empty t)
      rw [getD_set_self _ _ _ hlt]
      intro x hx
      rw [Finset.mem_singleton] at hx
      subst hx
      exact ht
    · rw [getD_set_ne _ _ _ _ hji]
  | propagate p => exact propagateFrom_subset rules conn s p i

/-- Claim C4: across any sequence of observation and propagation steps with
no rule reset in between, a cell's wave only shrinks or stays equal - every
step replaces each wave by a subset of its previous value, so the candidate
count `wave.len()` never increases. -/
theorem C4_waves_monotone (rules : RulesMap) (conn : Nat → Orientation → Option Nat)
    (s s' : PropState) (h : Relation.ReflTransGen (SolverStep rules conn) s s')
    (i : Nat) :
    s'.waves.getD i ∅ ⊆ s.waves.getD i ∅ ∧
      (s'.waves.getD i ∅).card ≤ (s.waves.getD i ∅).card := by
  have hsub : s'.waves.getD i ∅ ⊆ s.waves.getD i ∅ := by
    induction h with
    | refl => exact subset_rfl
    | tail _ hstep ih => exact subset_trans (hstep.waves_subset i) ih
  exact ⟨hsub, Finset.card_le_card hsub⟩

/-- Both cells undecided between `tileA` and `tileB`, nothing dirty. -/
def stateC4 : PropState :=
  ⟨[{tileA, tileB}, {tileA, tileB}], ∅⟩

theorem C4_waves_monotone_witness :
    Relation.ReflTransGen (SolverStep rulesAB connPair) stateC4
        ⟨stateC4.waves.set 0 {tileA}, insert 0 stateC4.need_propagation⟩ ∧
      ((⟨stateC4.waves.set 0 {tileA}, insert 0 stateC4.need_propagation⟩ :
            PropState).waves.getD 0 ∅ ⊆ stateC4.waves.getD 0 ∅ ∧
        ((⟨stateC4.waves.set 0 {tileA}, insert 0 stateC4.need_propagation⟩ :
            PropState).waves.getD 0 ∅).card ≤ (stateC4.waves.getD 0 ∅).card) :=
  have hchain : Relation.ReflTransGen (SolverStep rulesAB connPair) stateC4
      ⟨stateC4.waves.set 0 {tileA}, insert 0 stateC4.need_propagation⟩ :=
    Relation.ReflTransGen.single (SolverStep.observe stateC4 0 tileA (by decide))
  ⟨hchain, C4_waves_monotone rulesAB connPair stateC4 _ hchain 0⟩

/-- The state of the output grid right after the rule-change reset (wcf.rs
lines 105-112): every cell's wave is exactly the key set of the adjacency
table, nothing dirty. -/
def resetState (rules : RulesMap) (count : Nat) : PropState :=
  ⟨List.replicate count rules.keys, ∅⟩

theorem getD_replicate_subset (rules : RulesMap) (count i : Nat) :
    (List.replicate count rules.keys).getD i ∅ ⊆ rules.keys := by
  by_cases h : i < count
  · rw [List.getD_eq_getElem _ _ (by simpa using h)]
    simp [List.getElem_replicate]
  · push_neg at h
    rw [List.getD_eq_default _ _ (by simpa using h)]
    exact Finset.empty_subset _

/-- Claim C10: in every state reachable from the rule-change reset by
observation and propagation steps, every tile of every cell's wave is a key
of the current adjacency table (the reset makes waves exactly the key set,
and every later step only keeps existing elements), so the
`rules.alloweds.get(value).unwrap()` performed for each wave element during
propagation cannot fail. -/
theorem C10_unwrap_safe (rules : RulesMap) (conn : Nat → Orientation → Option Nat)
    (count : Nat) (s : PropState)
    (h : Relation.ReflTransGen (SolverStep rules conn) (resetState rules count) s) :
    ∀ i : Nat, ∀ v ∈ s.waves.getD i ∅, rules.get v ≠ none := by
  have hinv : ∀ i, s.waves.getD i ∅ ⊆ rules.keys := by
    induction h with
    | refl => intro i; exact getD_replicate_subset rules count i
    | tail _ hstep ih => intro i; exact subset_trans (hstep.waves_subset i) (ih i)
  intro i v hv
  have hkey : v ∈ rules.keys := hinv i hv
  unfold RulesMap.get
  rw [if_pos hkey]
  exact Option.some_ne_none _

theorem C10_unwrap_safe_witness :
    Relation.ReflTransGen (SolverStep rulesAB connPair) (resetState rulesAB 2)
        (resetState rulesAB 2) ∧
      rulesAB.get tileA ≠ none :=
  ⟨Relation.ReflTransGen.refl,
    C10_unwrap_safe rulesAB connPair 2 (resetState rulesAB 2)
      Relation.ReflTransGen.refl 0 tileA (by decide)⟩

/-- Invariant of the minimum-entropy scan: over any processed index list, the
accumulator's first component only decreases, stays at least 2, bounds every
entropy above one from below, is either untouched or realized by a processed
cell of entropy above one, and the accumulated list holds exactly the
surviving initial entries plus the processed cells realizing the final
minimum. -/
theorem minEntropyScan_spec (waves : List (Finset Tile)) (l : List Nat) :
    ∀ acc : Nat × List Nat, 2 ≤ acc.1 →
      (∀ j ∈ acc.2, (waves.getD j ∅).card = acc.1) →
      2 ≤ (l.foldl (minEntropyStep waves) acc).1 ∧
      (l.foldl (minEntropyStep waves) acc).1 ≤ acc.1 ∧
      (∀ i ∈ l, 1 < (waves.getD i ∅).card →
        (l.foldl (minEntropyStep waves) acc).1 ≤ (waves.getD i ∅).card) ∧
      ((l.foldl (minEntropyStep waves) acc).1 = acc.1 ∨
        ∃ i ∈ l, (l.foldl (minEntropyStep waves) acc).1 = (waves.getD i ∅).card ∧
          1 < (waves.getD i ∅).card) ∧
      (∀ j, j ∈ (l.foldl (minEntropyStep waves) acc).2 ↔
        ((j ∈ acc.2 ∧ (l.foldl (minEntropyStep waves) acc).1 = acc.1) ∨
          (j ∈ l ∧ (waves.getD j ∅).card = (l.foldl (minEntropyStep waves) acc).1))) := by
  induction l with
  | nil =>
    intro acc h2 hacc
    exact ⟨h2, le_rfl, by simp, Or.inl rfl, fun j => by simp⟩
  | cons i tl ih =>
    intro acc h2 hacc
    rw [List.foldl_cons]
    by_cases hb : (waves.getD i ∅).card < acc.1 ∧ 1 < (waves.getD i ∅).card
    · -- new strict minimum: the list restarts at just the new cell
      have hstep : minEntropyStep waves acc i = ((waves.getD i ∅).card, [i]) := by
        simp only [minEntropyStep]
        rw [if_pos hb]
        simp
      rw [hstep]
      obtain ⟨ih2, ihle, ihmin, ihdisj, ihmem⟩ :=
        ih ((waves.getD i ∅).card, [i]) hb.2 (by
          intro j hj
          have hji : j = i := List.mem_singleton.mp hj
          subst hji
          rfl)
      have ihle2 : (tl.foldl (minEntropyStep waves) ((waves.getD i ∅).card, [i])).1
          ≤ (waves.getD i ∅).card := ihle
      refine ⟨ih2, le_trans ihle2 (le_of_lt hb.1), ?_, ?_, ?_⟩
      · intro i1 hi1 h1
        rcases List.mem_cons.mp hi1 with rfl | hi1
        · exact ihle2
        · exact ihmin i1 hi1 h1
      · rcases ihdisj with heq | ⟨i1, hi1, heq, h1⟩
        · exact Or.inr ⟨i, List.mem_cons_self i tl, heq, hb.2⟩
        · exact Or.inr ⟨i1, List.mem_cons_of_mem i hi1, heq, h1⟩
      · intro j
        rw [ihmem j]
        constructor
        · rintro (⟨hj1, hjF⟩ | ⟨hjtl, hjE⟩)
          · have hji : j = i := List.mem_singleton.mp hj1
            subst hji
            exact Or.inr ⟨List.mem_cons_self j tl, hjF.symm⟩
          · exact Or.inr ⟨List.mem_cons_of_mem i hjtl, hjE⟩
        · rintro (⟨hjacc, hjF⟩ | ⟨hjcons, hjE⟩)
          · exfalso
            have hlt := hb.1
            omega
          · rcases List.mem_cons.mp hjcons with rfl | hjtl
            · exact Or.inl ⟨List.mem_singleton_self _, hjE.symm⟩
            · exact Or.inr ⟨hjtl, hjE⟩
    · by_cases he : (waves.getD i ∅).card = acc.1
      · -- ties the current minimum: the new cell is appended
        have hstep : minEntropyStep waves acc i = (acc.1, acc.2 ++ [i]) := by
          simp only [minEntropyStep]
          rw [if_neg hb, if_pos he]
        rw [hstep]
        obtain ⟨ih2, ihle, ihmin, ihdisj, ihmem⟩ :=
          ih (acc.1, acc.2 ++ [i]) h2 (by
            intro j hj
            rcases List.mem_append.mp hj with hj | hj
            · exact hacc j hj
            · have hji : j = i := List.mem_singleton.mp hj
              subst hji
              exact he)
        have ihle2 : (tl.foldl (minEntropyStep waves) (acc.1, acc.2 ++ [i])).1
            ≤ acc.1 := ihle
        refine ⟨ih2, ihle2, ?_, ?_, ?_⟩
        · intro i1 hi1 h1
          rcases List.mem_cons.mp hi1 with rfl | hi1
          · rw [he]
            exact ihle2
          · exact ihmin i1 hi1 h1
        · rcases ihdisj with heq | ⟨i1, hi1, heq, h1⟩
          · exact Or.inl heq
          · exact Or.inr ⟨i1, List.mem_cons_of_mem i hi1, heq, h1⟩
        · intro j
          rw [ihmem j]
          constructor
          · rintro (⟨hjapp, hjF⟩ | ⟨hjtl, hjE⟩)
            · rcases List.mem_append.mp hjapp with hja | hji
              · exact Or.inl ⟨hja, hjF⟩
              · have hji2 : j = i := List.mem_singleton.mp hji
                subst hji2
                refine Or.inr ⟨List.mem_cons_self _ _, ?_⟩
                rw [he]
                exact hjF.symm
            · exact Or.inr ⟨List.mem_cons_of_mem i hjtl, hjE⟩
          · rintro (⟨hja, hjF⟩ | ⟨hjcons, hjE⟩)
            · exact Or.inl ⟨List.mem_append_left _ hja, hjF⟩
            · rcases List.mem_cons.mp hjcons with rfl | hjtl
              · exact Or.inl ⟨List.mem_append_right _ (List.mem_singleton_self _),
                  hjE.symm.trans he⟩
              · exact Or.inr ⟨hjtl, hjE⟩
      · -- neither a new minimum nor a tie: nothing changes
        have hstep : minEntropyStep waves acc i = acc := by
          simp only [minEntropyStep]
          rw [if_neg hb, if_neg he]
        rw [hstep]
        obtain ⟨ih2, ihle, ihmin, ihdisj, ihmem⟩ := ih acc h2 hacc
        refine ⟨ih2, ihle, ?_, ?_, ?_⟩
        · intro i1 hi1 h1
          rcases List.mem_cons.mp hi1 with rfl | hi1
          · have hge : ¬ (waves.getD i1 ∅).card < acc.1 := fun hlt => hb ⟨hlt, h1⟩
            omega
          · exact ihmin i1 hi1 h1
        · rcases ihdisj with heq | ⟨i1, hi1, heq, h1⟩
          · exact Or.inl heq
          · exact Or.inr ⟨i1, List.mem_cons_of_mem i hi1, heq, h1⟩
        · intro j
          rw [ihmem j]
          constructor
          · rintro (⟨hja, hjF⟩ | ⟨hjtl, hjE⟩)
            · exact Or.inl ⟨hja, hjF⟩
            · exact Or.inr ⟨List.mem_cons_of_mem i hjtl, hjE⟩
          · rintro (⟨hja, hjF⟩ | ⟨hjcons, hjE⟩)
            · exact Or.inl ⟨hja, hjF⟩
            · rcases List.mem_cons.mp hjcons with rfl | hjtl
              · exfalso
                by_cases hlt : (waves.getD j ∅).card < acc.1
                · have h1 : ¬ 1 < (waves.getD j ∅).card := fun h1 => hb ⟨hlt, h1⟩
                  omega
                · omega
              · exact Or.inr ⟨hjtl, hjE⟩

theorem getD_mem_nat {l : List Nat} {n : Nat} (h : n < l.length) (d : Nat) :
    l.getD n d ∈ l := by
  rw [List.getD_eq_getElem _ _ h]
  exact List.getElem_mem h

theorem two_le_usizeMax : 2 ≤ usizeMax := by
  norm_num [usizeMax]

/-- Claim C6: the observation step considers exactly the cells of entropy
above one: `min_entropy_entities` consists precisely of the cells achieving
the minimum entropy among entropy-above-one cells (cells of entropy 0 or 1
are never candidates), the rng chooses among exactly that list, and the
chosen cell's wave is collapsed to the singleton of a tile drawn from its
own candidate set while the cell is marked dirty.  The bound hypothesis is
the `usize` range of a `HashSet` length. -/
theorem C6_observation (waves : List (Finset Tile)) (cellChoice : Nat)
    (tsel : Finset Tile → Tile)
    (hbound : ∀ i, i < waves.length → (waves.getD i ∅).card ≤ usizeMax)
    (htsel : ∀ w : Finset Tile, w.Nonempty → tsel w ∈ w) :
    (∀ j, j ∈ min_entropy_entities waves ↔
      (j < waves.length ∧ 1 < (waves.getD j ∅).card ∧
        ∀ j2, j2 < waves.length → 1 < (waves.getD j2 ∅).card →
          (waves.getD j ∅).card ≤ (waves.getD j2 ∅).card)) ∧
    (min_entropy_entities waves ≠ [] →
      chosenEntity waves cellChoice ∈ min_entropy_entities waves ∧
      observedTile waves cellChoice tsel
        ∈ waves.getD (chosenEntity waves cellChoice) ∅ ∧
      (observationState waves cellChoice tsel).waves.getD
          (chosenEntity waves cellChoice) ∅
        = {observedTile waves cellChoice tsel} ∧
      (observationState waves cellChoice tsel).need_propagation
        = {chosenEntity waves cellChoice}) := by
  obtain ⟨hF2, hFle, hFmin, hFdisj, hFmem⟩ :=
    minEntropyScan_spec waves (List.range waves.length) (usizeMax, [])
      two_le_usizeMax (by simp)
  have hchar : ∀ j, j ∈ min_entropy_entities waves ↔
      (j < waves.length ∧ 1 < (waves.getD j ∅).card ∧
        ∀ j2, j2 < waves.length → 1 < (waves.getD j2 ∅).card →
          (waves.getD j ∅).card ≤ (waves.getD j2 ∅).card) := by
    intro j
    unfold min_entropy_entities minEntropyScan
    constructor
    · intro hj
      rw [hFmem j] at hj
      rcases hj with ⟨hj0, _⟩ | ⟨hjr, hjE⟩
      · exact absurd hj0 (List.not_mem_nil j)
      · have hjlen : j < waves.length := List.mem_range.mp hjr
        have h1j : 1 < (waves.getD j ∅).card := by omega
        refine ⟨hjlen, h1j, ?_⟩
        intro j2 hj2len h1j2
        have := hFmin j2 (List.mem_range.mpr hj2len) h1j2
        omega
    · rintro ⟨hjlen, h1j, hmin⟩
      rw [hFmem j]
      refine Or.inr ⟨List.mem_range.mpr hjlen, ?_⟩
      have hge := hFmin j (List.mem_range.mpr hjlen) h1j
      have hle : (waves.getD j ∅).card
          ≤ ((List.range waves.length).foldl (minEntropyStep waves) (usizeMax, [])).1 := by
        rcases hFdisj with heq | ⟨i1, hi1, heq, h1i1⟩
        · have hb := hbound j hjlen
          have heq2 : ((List.range waves.length).foldl (minEntropyStep waves)
              (usizeMax, [])).1 = usizeMax := heq
          omega
        · have := hmin i1 (List.mem_range.mp hi1) h1i1
          omega
      omega
  refine ⟨hchar, ?_⟩
  intro hne
  have hlenpos : 0 < (min_entropy_entities waves).length := List.length_pos.mpr hne
  have hidx : cellChoice % (min_entropy_entities waves).length
      < (min_entropy_entities waves).length := Nat.mod_lt _ hlenpos
  have hchosen : chosenEntity waves cellChoice ∈ min_entropy_entities waves := by
    unfold chosenEntity
    exact getD_mem_nat hidx 0
  obtain ⟨hclen, h1c, _⟩ := (hchar _).mp hchosen
  have hobs : observedTile waves cellChoice tsel
      ∈ waves.getD (chosenEntity waves cellChoice) ∅ := by
    unfold observedTile
    exact htsel _ (Finset.card_pos.mp (by omega))
  refine ⟨hchosen, hobs, ?_, rfl⟩
  unfold observationState
  dsimp only
  exact getD_set_self _ _ _ hclen

/-- Cell 0 undecided between `tileA` and `tileB`, cell 1 already resolved. -/
def wavesC6 : List (Finset Tile) := [{tileA, tileB}, {tileA}]

theorem C6_observation_witness :
    ((∀ i, i < wavesC6.length → (wavesC6.getD i ∅).card ≤ usizeMax) ∧
      (∀ w : Finset Tile, w.Nonempty → tselMin w ∈ w)) ∧
      ((∀ j, j ∈ min_entropy_entities wavesC6 ↔
        (j < wavesC6.length ∧ 1 < (wavesC6.getD j ∅).card ∧
          ∀ j2, j2 < wavesC6.length → 1 < (wavesC6.getD j2 ∅).card →
            (wavesC6.getD j ∅).card ≤ (wavesC6.getD j2 ∅).card)) ∧
      (min_entropy_entities wavesC6 ≠ [] →
        chosenEntity wavesC6 0 ∈ min_entropy_entities wavesC6 ∧
        observedTile wavesC6 0 tselMin ∈ wavesC6.getD (chosenEntity wavesC6 0) ∅ ∧
        (observationState wavesC6 0 tselMin).waves.getD (chosenEntity wavesC6 0) ∅
          = {observedTile wavesC6 0 tselMin} ∧
        (observationState wavesC6 0 tselMin).need_propagation
          = {chosenEntity wavesC6 0})) :=
  ⟨⟨by decide, tselMin_mem⟩, C6_observation wavesC6 0 tselMin (by decide) tselMin_mem⟩

/-- Claim C3 counterexample: with the minimal legal budget
`collapse_per_frame = 1` (the inspector minimum), one tick on a two-cell
strip performs 2 propagation steps: `collapse` never consults
`Tuning.collapse_per_frame` and runs its while loop to completion within the
invocation. -/
theorem C3_counterexample :
    (Tuning.mk true 1 100).collapse_per_frame = 1 ∧
      1 ≤ (Tuning.mk true 1 100).collapse_per_frame ∧
      collapseTickSteps rulesAB connPair pickFirst 0 tselMin
        [{tileA, tileB}, {tileA, tileB}] = 2 ∧
      ¬ collapseTickSteps rulesAB connPair pickFirst 0 tselMin
          [{tileA, tileB}, {tileA, tileB}]
        ≤ (Tuning.mk true 1 100).collapse_per_frame := by
  refine ⟨rfl, le_rfl, ?_, ?_⟩
  · decide
  · decide

/-- Claim C3 (amended): one tick performs at most one observation and then
runs propagation all the way to an empty dirty set within the same
invocation; no steps-per-tick budget is consulted
(`Tuning.collapse_per_frame` is never read by `collapse`) and the local
dirty set is not retained, so the next invocation has nothing to resume. -/
theorem C3_tick_drains (rules : RulesMap) (conn : Nat → Orientation → Option Nat)
    (pick : PropState → Nat)
    (hpick : ∀ s : PropState, s.need_propagation.Nonempty → pick s ∈ s.need_propagation)
    (cellChoice : Nat) (tsel : Finset Tile → Tile) (waves : List (Finset Tile)) :
    (collapseTickState rules conn pick cellChoice tsel waves).need_propagation
      = ∅ := by
  unfold collapseTickState
  split
  · rfl
  · exact propagationLoop_drains rules conn pick hpick _ _ le_rfl

theorem C3_tick_drains_witness :
    (∀ s : PropState, s.need_propagation.Nonempty → pickFirst s ∈ s.need_propagation) ∧
      (collapseTickState rulesAB connPair pickFirst 0 tselMin
        [{tileA, tileB}, {tileA, tileB}]).need_propagation = ∅ :=
  ⟨pickFirst_mem,
    C3_tick_drains rulesAB connPair pickFirst pickFirst_mem 0 tselMin
      [{tileA, tileB}, {tileA, tileB}]⟩

theorem cell_none_of_all_none {g : List (List (Option Tile))}
    (hg : ∀ row ∈ g, ∀ c ∈ row, c = (none : Option Tile)) (x y : Nat) :
    (g.getD x []).getD y none = none := by
  by_cases hx : x < g.length
  · have hrow : g.getD x [] ∈ g := by
      rw [List.getD_eq_getElem _ _ hx]
      exact List.getElem_mem hx
    by_cases hy : y < (g.getD x []).length
    · have hc : (g.getD x []).getD y none ∈ g.getD x [] := by
        rw [List.getD_eq_getElem _ _ hy]
        exact List.getElem_mem hy
      exact hg _ hrow _ hc
    · push_neg at hy
      exact List.getD_eq_default _ _ hy
  · push_neg at hx
    rw [List.getD_eq_default _ _ hx]
    rfl

theorem getD_replicate_of_empty (count j : Nat) :
    (List.replicate count (∅ : Finset Tile)).getD j ∅ = ∅ := by
  by_cases h : j < count
  · rw [List.getD_eq_getElem _ _ (by simpa using h)]
    simp
  · push_neg at h
    exact List.getD_eq_default _ _ (by simpa using h)

/-- Claim C8: a rule grid with no filled cells yields an empty adjacency
table (no keys, all allowed sets empty); the reset then leaves every cell's
wave empty, the entropy scan finds no cell of entropy above one, the rng
choose returns `None`, and the tick performs no observation and no
propagation, leaving every wave empty (the model is total: no `unwrap` of
the propagation loop is ever reached). -/
theorem C8_empty_rules (w h : Nat) (g : List (List (Option Tile)))
    (prototypes : Nat → Prototype)
    (hg : ∀ row ∈ g, ∀ c ∈ row, c = (none : Option Tile))
    (conn : Nat → Orientation → Option Nat) (pick : PropState → Nat)
    (cellChoice count : Nat) (tsel : Finset Tile → Tile) :
    (expand_with_rotations prototypes (extractRules w h g)).keys = ∅ ∧
      (∀ t o, (expand_with_rotations prototypes (extractRules w h g)).alloweds t o = ∅) ∧
      resetState (expand_with_rotations prototypes (extractRules w h g)) count
        = ⟨List.replicate count ∅, ∅⟩ ∧
      min_entropy_entities (List.replicate count (∅ : Finset Tile)) = [] ∧
      collapseTickState (expand_with_rotations prototypes (extractRules w h g)) conn
        pick cellChoice tsel (List.replicate count ∅)
        = ⟨List.replicate count ∅, ∅⟩ := by
  have hbase : (extractRules w h g).keys = ∅ := by
    rw [Finset.eq_empty_iff_forall_not_mem]
    intro t ht
    obtain ⟨⟨x, y⟩, _, _, hc⟩ := (mem_keys_extractRules w h g t).mp ht
    rw [cell_none_of_all_none hg x y] at hc
    exact Option.noConfusion hc
  have hkeys : (expand_with_rotations prototypes (extractRules w h g)).keys = ∅ := by
    rw [Finset.eq_empty_iff_forall_not_mem]
    intro t ht
    obtain ⟨tile, htile, _⟩ := (mem_keys_expand prototypes (extractRules w h g) t).mp ht
    rw [hbase] at htile
    exact Finset.not_mem_empty tile htile
  have halloweds : ∀ t o,
      (expand_with_rotations prototypes (extractRules w h g)).alloweds t o = ∅ := by
    intro t o
    rw [Finset.eq_empty_iff_forall_not_mem]
    intro rat hrat
    obtain ⟨tile, htile, _⟩ :=
      (mem_alloweds_expand prototypes (extractRules w h g) t o rat).mp hrat
    rw [hbase] at htile
    exact Finset.not_mem_empty tile htile
  have hreset : resetState (expand_with_rotations prototypes (extractRules w h g)) count
      = ⟨List.replicate count ∅, ∅⟩ := by
    unfold resetState
    rw [hkeys]
  have hscan : min_entropy_entities (List.replicate count (∅ : Finset Tile)) = [] := by
    obtain ⟨_, _, _, _, hmem⟩ :=
      minEntropyScan_spec (List.replicate count (∅ : Finset Tile))
        (List.range (List.replicate count (∅ : Finset Tile)).length)
        (usizeMax, []) two_le_usizeMax (by simp)
    obtain ⟨h2, _, _, _, _⟩ :=
      minEntropyScan_spec (List.replicate count (∅ : Finset Tile))
        (List.range (List.replicate count (∅ : Finset Tile)).length)
        (usizeMax, []) two_le_usizeMax (by simp)
    rw [List.eq_nil_iff_forall_not_mem]
    intro j hj
    have hj2 := hj
    unfold min_entropy_entities minEntropyScan at hj2
    rw [hmem j] at hj2
    rcases hj2 with ⟨hj0, _⟩ | ⟨_, hjE⟩
    · exact absurd hj0 (List.not_mem_nil j)
    · rw [getD_replicate_of_empty] at hjE
      simp only [Finset.card_empty] at hjE
      omega
  refine ⟨hkeys, halloweds, hreset, hscan, ?_⟩
  unfold collapseTickState
  rw [if_pos hscan]

/-- A 2x2 rule grid with no filled cells. -/
def gridNone : List (List (Option Tile)) := [[none, none], [none, none]]

theorem C8_empty_rules_witness :
    (∀ row ∈ gridNone, ∀ c ∈ row, c = (none : Option Tile)) ∧
      (expand_with_rotations protosNone (extractRules 2 2 gridNone)).keys = ∅ ∧
      (expand_with_rotations protosNone (extractRules 2 2 gridNone)).alloweds tileA
        Orientation.North = ∅ ∧
      min_entropy_entities (List.replicate 1 (∅ : Finset Tile)) = [] ∧
      collapseTickState (expand_with_rotations protosNone (extractRules 2 2 gridNone))
        connPair pickFirst 0 tselMin (List.replicate 1 ∅) = ⟨List.replicate 1 ∅, ∅⟩ :=
  have happ := C8_empty_rules 2 2 gridNone protosNone (by decide) connPair pickFirst 0 1
    tselMin
  ⟨by decide, happ.1, happ.2.1 tileA Orientation.North, happ.2.2.2.1, happ.2.2.2.2⟩

end BevyCollapsor
